import Mathlib

set_option maxRecDepth 10000

/-!
Verification of the Ingestion & Retrieval Pipeline of the repository:
the text chunker (`chunker.util.ts`), the sync orchestrator
(`sync.service.ts`), and the retrieval/augmentation engine
(`rag.service.ts`).  Strings are modelled as Lean `String` at the API
level and as `List Char` inside the character-level chunking loop;
timestamps are `Nat`; JavaScript numbers used as indices are `Int`
(they can go negative in the sliding-window loop); fallible external
calls return `Except String`; the `while` loop of `chunkText` is given
an explicit fuel argument and returns `none` when the fuel runs out
before the loop exits.
-/

/-- The JavaScript whitespace class (`\s`, `trim`) restricted to ASCII:
space, tab, newline, carriage return, vertical tab, form feed. -/
def isWsChar (c : Char) : Bool :=
  c = ' ' || c = '\t' || c = '\n' || c = '\r' || c = '\x0b' || c = '\x0c'

/-- JavaScript `String.prototype.slice(start, end)`: negative indices
count from the end, both are clamped to `[0, length]`, and an empty
result is returned when the effective start is not below the end. -/
def jsSlice (l : List Char) (start endI : Int) : List Char :=
  let len : Int := l.length
  let s : Int := if start < 0 then max (len + start) 0 else min start len
  let e : Int := if endI < 0 then max (len + endI) 0 else min endI len
  if s < e then (l.drop s.toNat).take (e - s).toNat else []

/-- JavaScript `String.prototype.trim()` on the ASCII whitespace class. -/
def jsTrim (l : List Char) : List Char :=
  ((l.dropWhile isWsChar).reverse.dropWhile isWsChar).reverse

/-- Length of the leading whitespace run (the greedy `\s+`). -/
def wsRunLen (l : List Char) : Nat :=
  (l.takeWhile isWsChar).length

/-- The four break patterns of `findBreakPoint`, in source priority
order: `/\n\n/`, `/[.!?]\s+/`, `/[,;:]\s+/`, `/\s+/`. -/
inductive BreakPat where
  | par
  | sentence
  | clause
  | ws
deriving DecidableEq

/-- Match of a break pattern anchored at the head of `l`, returning the
match length (regex semantics: `\s+` is greedy, so it takes the maximal
whitespace run). -/
def matchAt (p : BreakPat) (l : List Char) : Option Nat :=
  match p with
  | .par =>
    match l with
    | a :: b :: _ => if a = '\n' && b = '\n' then some 2 else none
    | _ => none
  | .sentence =>
    match l with
    | c :: rest =>
      if (c = '.' || c = '!' || c = '?') && 0 < wsRunLen rest then
        some (1 + wsRunLen rest)
      else none
    | [] => none
  | .clause =>
    match l with
    | c :: rest =>
      if (c = ',' || c = ';' || c = ':') && 0 < wsRunLen rest then
        some (1 + wsRunLen rest)
      else none
    | [] => none
  | .ws => if 0 < wsRunLen l then some (wsRunLen l) else none

/-- All matches of a pattern in left-to-right `exec` order, as
`(index, length)` pairs: the scanner looks for the leftmost match at or
after the current position and resumes after its end (`lastIndex`).
The fuel is the remaining list length; every match has positive length,
so the fuel never runs out when called with `l.length`. -/
def execAllAux (p : BreakPat) : Nat → List Char → Nat → List (Nat × Nat)
  | 0, _, _ => []
  | _ + 1, [], _ => []
  | fuel + 1, c :: rest, pos =>
    match matchAt p (c :: rest) with
    | some k => (pos, k) :: execAllAux p fuel ((c :: rest).drop k) (pos + k)
    | none => execAllAux p fuel rest (pos + 1)

/-- All matches of a break pattern in a string. -/
def execAll (p : BreakPat) (l : List Char) : List (Nat × Nat) :=
  execAllAux p l.length l 0

/-- The source's inner `while` over `pattern.exec`: iterate the matches
in order and remember the last one whose index is in the final 40% of
the window (`match.index > searchRange.length * 0.6`).  For integer
index and length the floating-point comparison agrees exactly with the
rational comparison `5 * index > 3 * length` throughout the realistic
range, which is how it is rendered here. -/
def keepLastLate (len : Nat) (ms : List (Nat × Nat)) : Option (Nat × Nat) :=
  ms.foldl (fun acc m => if 3 * len < 5 * m.1 then some m else acc) none

/-- `findBreakPoint(text, start, maxEnd)` from `chunker.util.ts`: slice
the window, try the four patterns in priority order, return
`start + lastMatch.index + lastMatch[0].length` for the first pattern
that has a late match, else `maxEnd`. -/
def findBreakPoint (text : List Char) (start maxEnd : Int) : Int :=
  let searchRange := jsSlice text start maxEnd
  let len := searchRange.length
  match keepLastLate len (execAll .par searchRange) with
  | some m => start + (m.1 : Int) + (m.2 : Int)
  | none =>
    match keepLastLate len (execAll .sentence searchRange) with
    | some m => start + (m.1 : Int) + (m.2 : Int)
    | none =>
      match keepLastLate len (execAll .clause searchRange) with
      | some m => start + (m.1 : Int) + (m.2 : Int)
      | none =>
        match keepLastLate len (execAll .ws searchRange) with
        | some m => start + (m.1 : Int) + (m.2 : Int)
        | none => maxEnd

/-- A chunk as produced by `chunkText`. -/
structure Chunk where
  text : List Char
  index : Nat
  startChar : Int
  endChar : Int
deriving DecidableEq

/-- `ChunkOptions` with all fields required (the source merges partial
options over `DEFAULT_OPTIONS`). -/
structure ChunkOptions where
  maxChunkSize : Nat
  chunkOverlap : Nat
  minChunkSize : Nat
deriving DecidableEq

/-- `DEFAULT_OPTIONS = {maxChunkSize: 1000, chunkOverlap: 200, minChunkSize: 100}`. -/
def defaultChunkOptions : ChunkOptions := ⟨1000, 200, 100⟩

/-- One window's end position: `endChar = startChar + maxChunkSize`,
clamped to the text length when it reaches the end, otherwise moved to
a break point. -/
def computeEndChar (text : List Char) (maxCS : Nat) (startChar : Int) : Int :=
  if (text.length : Int) ≤ startChar + (maxCS : Int) then (text.length : Int)
  else findBreakPoint text startChar (startChar + (maxCS : Int))

/-- The `while (startChar < text.length)` loop of `chunkText`, with an
explicit fuel (`none` = the fuel ran out before the loop exited, i.e.
the loop runs longer than the fuel).  Besides the emitted chunks the
function also returns, as ghost instrumentation, the spans
`(startChar, endChar)` of processed windows that were *skipped* for
being shorter than `minChunkSize` after trimming; this extra component
does not influence control flow or the emitted chunks. -/
def chunkLoop (text : List Char) (maxCS ov minCS : Nat) :
    Nat → Int → Nat → List Chunk → List (Int × Int) →
    Option (List Chunk × List (Int × Int))
  | 0, _, _, _, _ => none
  | fuel + 1, startChar, chunkIndex, chunks, skipped =>
    if startChar < (text.length : Int) then
      let endChar : Int := computeEndChar text maxCS startChar
      let ctext := jsTrim (jsSlice text startChar endChar)
      let chunks' :=
        if minCS ≤ ctext.length then
          chunks ++ [⟨ctext, chunkIndex, startChar, endChar⟩]
        else chunks
      let skipped' :=
        if minCS ≤ ctext.length then skipped else skipped ++ [(startChar, endChar)]
      let chunkIndex' := if minCS ≤ ctext.length then chunkIndex + 1 else chunkIndex
      let startChar' := endChar - (ov : Int)
      if (text.length : Int) - (minCS : Int) ≤ startChar' then some (chunks', skipped')
      else chunkLoop text maxCS ov minCS fuel startChar' chunkIndex' chunks' skipped'
    else some (chunks, skipped)

/-- `chunkText` including the ghost skipped-window spans. -/
def chunkTextG (text : List Char) (opts : ChunkOptions) (fuel : Nat) :
    Option (List Chunk × List (Int × Int)) :=
  if text.length ≤ opts.maxChunkSize then
    some ([⟨jsTrim text, 0, 0, (text.length : Int)⟩], [])
  else
    chunkLoop text opts.maxChunkSize opts.chunkOverlap opts.minChunkSize fuel 0 0 [] []

/-- `chunkText(text, options)` from `chunker.util.ts` (fuel-indexed;
`none` = the loop does not exit within `fuel` iterations). -/
def chunkText (text : List Char) (opts : ChunkOptions) (fuel : Nat) :
    Option (List Chunk) :=
  (chunkTextG text opts fuel).map (fun r => r.1)

/-- `estimateTokens(text) = Math.ceil(text.length / 4)`. -/
def estimateTokens (text : String) : Nat :=
  (text.length + 3) / 4

/-- `needsChunking(text, maxTokens)` (the source default for
`maxTokens` is 250; callers here pass it explicitly). -/
def needsChunking (text : String) (maxTokens : Nat) : Bool :=
  maxTokens < estimateTokens text

/-- `prepareTextForEmbedding(title, content)`. -/
def prepareTextForEmbedding (title content : String) : String :=
  title ++ "\n\n" ++ content

/-- The last match of `ms` whose index lies strictly beyond 60% of the
window length — the claim-side rendering used to check
`findBreakPoint` against the specification. -/
def lastLateSpec (len : Nat) (ms : List (Nat × Nat)) : Option (Nat × Nat) :=
  (ms.filter (fun m => 3 * len < 5 * m.1)).getLast?

/-- `findBreakPoint` as the specification words it: among the patterns
in priority order, the first one having any match in the final 40% of
the window wins, the last such match's end offset is returned, and the
fallback is the hard window boundary `start + maxChunkSize`. -/
def findBreakPointSpec (text : List Char) (start : Int) (maxCS : Nat) : Int :=
  let searchRange := jsSlice text start (start + (maxCS : Int))
  let len := searchRange.length
  match
    List.findSome? (fun p => lastLateSpec len (execAll p searchRange))
      [BreakPat.par, BreakPat.sentence, BreakPat.clause, BreakPat.ws]
  with
  | some m => start + (m.1 : Int) + (m.2 : Int)
  | none => start + (maxCS : Int)

/-- Claim C4 as stated, for a fixed text and options: whenever
`chunkText` returns, every non-whitespace character of the input lies
inside the span of some emitted chunk. -/
def SpanCoverage (text : List Char) (opts : ChunkOptions) : Prop :=
  ∀ fuel chunks, chunkText text opts fuel = some chunks →
    ∀ i (h : i < text.length), isWsChar (text.get ⟨i, h⟩) = false →
      ∃ c ∈ chunks, c.startChar ≤ (i : Int) ∧ (i : Int) < c.endChar

/-! ## Sync orchestrator (`sync.service.ts`) -/

/-- `SyncStatus` from `sync-log.entity.ts`. -/
inductive SyncStatus where
  | started
  | completed
  | failed
deriving DecidableEq

/-- `SyncType` from `sync-log.entity.ts`. -/
inductive SyncType where
  | full
  | incremental
deriving DecidableEq

/-- A `sync_logs` row.  `id` is the generated primary key (modelled as
the row's insertion index), timestamps are abstract `Nat` instants,
and the nullable columns are `Option`. -/
structure SyncLog where
  id : Nat
  type : SyncType
  status : SyncStatus
  documentsSynced : Nat
  chunksCreated : Nat
  errorMessage : Option String
  startedAt : Nat
  completedAt : Option Nat
deriving DecidableEq

/-- A `documents` row (`document.entity.ts`); `metadata` is opaque and
never read by the pipeline, so it is omitted. -/
structure Document where
  id : String
  title : String
  content : String
  category : Option String
  createdAt : Nat
  updatedAt : Nat
deriving DecidableEq

/-- Embedding vectors: the pipeline never inspects the numeric values,
so they are carried opaquely. -/
abbrev Vec := List Int

/-- The payload the sync service writes on every vector point. -/
structure VPayload where
  document_id : String
  title : String
  category : Option String
  chunk_index : Nat
  chunk_text : String
  is_chunk : Bool
deriving DecidableEq

/-- `VectorPoint` from `qdrant.service.ts`. -/
structure VectorPoint where
  id : String
  vector : Vec
  payload : VPayload
deriving DecidableEq

/-- Ghost trace of the vector-index mutating calls a sync run makes,
in call order: `deleteByDocumentId(documentId)` and
`upsertPoints(points)`. -/
inductive Op where
  | delete (documentId : String)
  | upsert (points : List VectorPoint)
deriving DecidableEq

/-- The mutable state a sync run touches: the in-memory single-flight
flag, the `sync_logs` table (insertion order), the vector collection,
and the ghost call trace. -/
structure World where
  isSyncing : Bool
  logs : List SyncLog
  points : List VectorPoint
  trace : List Op
deriving DecidableEq

/-- The external collaborators, with injectable failures: the document
store (`docs`, shared by `find` and `find({where: updatedAt > d})`,
failing when `listFail` is set), the embedding backend (`embed`), the
vector index (`upsertFail` / `deleteFail`), and the clock (`now`). -/
structure SyncEnv where
  docs : List Document
  listFail : Option String
  embed : String → Except String Vec
  upsertFail : Option String
  deleteFail : Option String
  now : Nat

/-- `SyncResult` from `sync.service.ts` (`duration` is opaque time
arithmetic and is modelled as 0). -/
structure SyncResult where
  success : Bool
  type : SyncType
  documentsSynced : Nat
  chunksCreated : Nat
  duration : Nat
  error : Option String
deriving DecidableEq

/-- The reentrancy-rejection result both sync entry points return when
a sync is already in flight. -/
def rejectResult (t : SyncType) : SyncResult :=
  ⟨false, t, 0, 0, 0, some "Sync already in progress"⟩

/-- The result of a completed run. -/
def okSyncResult (t : SyncType) (dc tc : Nat) : SyncResult :=
  ⟨true, t, dc, tc, 0, none⟩

/-- The result of a failed run. -/
def errSyncResult (t : SyncType) (e : String) : SyncResult :=
  ⟨false, t, 0, 0, 0, some e⟩

/-- Qdrant upsert of a single point: replace the point with the same
id, or append. -/
def upsertOnePoint (pts : List VectorPoint) (p : VectorPoint) : List VectorPoint :=
  if pts.any (fun q => q.id == p.id) then
    pts.map (fun q => if q.id == p.id then p else q)
  else pts ++ [p]

/-- `upsertPoints(points)` applied to the collection contents. -/
def upsertPoints (pts : List VectorPoint) (new : List VectorPoint) : List VectorPoint :=
  new.foldl upsertOnePoint pts

/-- `deleteByDocumentId(documentId)`: delete every point whose payload
`document_id` matches. -/
def deleteByDocumentId (pts : List VectorPoint) (documentId : String) : List VectorPoint :=
  pts.filter (fun p => p.payload.document_id != documentId)

/-- The chunked branch of `syncDocument`: one sequential embedding call
per chunk, one `VectorPoint` per chunk with id
`"{documentId}_chunk_{index}"` and `is_chunk = true`; the first
embedding error aborts. -/
def embedChunks (env : SyncEnv) (doc : Document) :
    List Chunk → Except String (List VectorPoint)
  | [] => .ok []
  | c :: rest =>
    match env.embed (String.mk c.text) with
    | .error e => .error e
    | .ok v =>
      match embedChunks env doc rest with
      | .error e => .error e
      | .ok pts =>
        .ok ({ id := doc.id ++ "_chunk_" ++ toString c.index, vector := v,
               payload := { document_id := doc.id, title := doc.title,
                            category := doc.category, chunk_index := c.index,
                            chunk_text := String.mk c.text, is_chunk := true } } :: pts)

/-- The points `syncDocument` builds for one document before its single
`upsertPoints` call (`none` = the chunker loop did not exit within
`fuel` iterations). -/
def syncDocumentPoints (env : SyncEnv) (fuel : Nat) (doc : Document) :
    Option (Except String (List VectorPoint)) :=
  if needsChunking (prepareTextForEmbedding doc.title doc.content) 250 then
    match chunkText (prepareTextForEmbedding doc.title doc.content).data
        defaultChunkOptions fuel with
    | none => none
    | some chunks => some (embedChunks env doc chunks)
  else
    some (match env.embed (prepareTextForEmbedding doc.title doc.content) with
          | .error e => .error e
          | .ok v =>
            .ok [{ id := doc.id, vector := v,
                   payload := { document_id := doc.id, title := doc.title,
                                category := doc.category, chunk_index := 0,
                                chunk_text := prepareTextForEmbedding doc.title doc.content,
                                is_chunk := false } }])

/-- `syncDocument(doc)`: build the points, then submit them in a single
`upsertPoints` call and return `points.length`.  `upsertPoints` returns
without calling the index when the list is empty. -/
def syncDocument (env : SyncEnv) (fuel : Nat) (doc : Document) (w : World) :
    Option (Except String Nat × World) :=
  match syncDocumentPoints env fuel doc with
  | none => none
  | some (.error e) => some (.error e, w)
  | some (.ok pts) =>
    if pts.isEmpty then some (.ok 0, w)
    else
      match env.upsertFail with
      | some e => some (.error e, w)
      | none =>
        some (.ok pts.length,
              { w with points := upsertPoints w.points pts,
                       trace := w.trace ++ [Op.upsert pts] })

/-- The `for (const doc of documents)` loop of `fullSync`, accumulating
`totalChunks`. -/
def syncDocsLoop (env : SyncEnv) (fuel : Nat) :
    List Document → Nat → World → Option (Except String Nat × World)
  | [], total, w => some (.ok total, w)
  | d :: rest, total, w =>
    match syncDocument env fuel d w with
    | none => none
    | some (.error e, w1) => some (.error e, w1)
    | some (.ok n, w1) => syncDocsLoop env fuel rest (total + n) w1

/-- The `for (const doc of documents)` loop of `incrementalSync`:
`deleteByDocumentId(doc.id)` first, then `syncDocument(doc)`. -/
def incDocsLoop (env : SyncEnv) (fuel : Nat) :
    List Document → Nat → World → Option (Except String Nat × World)
  | [], total, w => some (.ok total, w)
  | d :: rest, total, w =>
    match env.deleteFail with
    | some e => some (.error e, w)
    | none =>
      match syncDocument env fuel d
          { w with points := deleteByDocumentId w.points d.id,
                   trace := w.trace ++ [Op.delete d.id] } with
      | none => none
      | some (.error e, w2) => some (.error e, w2)
      | some (.ok n, w2) => incDocsLoop env fuel rest (total + n) w2

/-- `getLastSuccessfulSync()`: `findOne({where: {status: COMPLETED},
order: {completedAt: DESC}})` — a COMPLETED row with maximal
`completedAt` (the fold keeps the first such row on ties; only the
`completedAt` value is ever used downstream). -/
def getLastSuccessfulSync (logs : List SyncLog) : Option SyncLog :=
  logs.foldl
    (fun acc l =>
      if l.status = SyncStatus.completed then
        match acc with
        | none => some l
        | some b => if b.completedAt.getD 0 < l.completedAt.getD 0 then some l else acc
      else acc)
    none

/-- The fresh STARTED `sync_logs` row created at the top of each run. -/
def startedLog (t : SyncType) (idv now : Nat) : SyncLog :=
  { id := idv, type := t, status := .started, documentsSynced := 0,
    chunksCreated := 0, errorMessage := none, startedAt := now, completedAt := none }

/-- Saving the mutated `syncLog` entity: the run's row is the most
recently inserted one, so the update rewrites the last row. -/
def updateLast (logs : List SyncLog) (f : SyncLog → SyncLog) : List SyncLog :=
  match logs with
  | [] => []
  | [l] => [f l]
  | l :: rest => l :: updateLast rest f

/-- The COMPLETED update of the run's row. -/
def completeLog (env : SyncEnv) (dc tc : Nat) (l : SyncLog) : SyncLog :=
  { l with status := .completed, documentsSynced := dc, chunksCreated := tc,
           completedAt := some env.now }

/-- The FAILED update of the run's row. -/
def failLog (env : SyncEnv) (e : String) (l : SyncLog) : SyncLog :=
  { l with status := .failed, errorMessage := some e, completedAt := some env.now }

/-- Entering a run: set the single-flight flag (synchronously, before
any awaited call) and insert the STARTED row. -/
def syncEnter (t : SyncType) (env : SyncEnv) (w : World) : World :=
  { w with isSyncing := true, logs := w.logs ++ [startedLog t w.logs.length env.now] }

/-- The `try` block of `fullSync`: list all documents, sync each,
return `(documents.length, totalChunks)` or the first error. -/
def fullSyncBody (env : SyncEnv) (fuel : Nat) (w : World) :
    Option (Except String (Nat × Nat) × World) :=
  match env.listFail with
  | some e => some (.error e, w)
  | none =>
    match syncDocsLoop env fuel env.docs 0 w with
    | none => none
    | some (.error e, w1) => some (.error e, w1)
    | some (.ok total, w1) => some (.ok (env.docs.length, total), w1)

/-- `lastSync?.completedAt || new Date(0)` — the watermark the
incremental body computes from the log table. -/
def sinceOf (logs : List SyncLog) : Nat :=
  match getLastSuccessfulSync logs with
  | some l => l.completedAt.getD 0
  | none => 0

/-- The `try` block of `incrementalSync`: compute the watermark from
the most recent COMPLETED run (epoch zero when none), list the
documents with `updatedAt > since`, delete-then-reingest each. -/
def incSyncBody (env : SyncEnv) (fuel : Nat) (w : World) :
    Option (Except String (Nat × Nat) × World) :=
  match env.listFail with
  | some e => some (.error e, w)
  | none =>
    match incDocsLoop env fuel (env.docs.filter (fun d => sinceOf w.logs < d.updatedAt)) 0 w with
    | none => none
    | some (.error e, w1) => some (.error e, w1)
    | some (.ok total, w1) =>
      some (.ok ((env.docs.filter (fun d => sinceOf w.logs < d.updatedAt)).length, total), w1)

/-- `fullSync()`: reentrancy check, flag acquisition, STARTED row, the
body, the terminal row update, and the `finally` release of the flag
(`none` = the run never finishes because the chunker loop diverges). -/
def fullSync (env : SyncEnv) (fuel : Nat) (w : World) :
    Option (SyncResult × World) :=
  if w.isSyncing then some (rejectResult .full, w)
  else
    match fullSyncBody env fuel (syncEnter .full env w) with
    | none => none
    | some (.ok (dc, tc), w1) =>
      some (okSyncResult .full dc tc,
            { w1 with logs := updateLast w1.logs (completeLog env dc tc),
                      isSyncing := false })
    | some (.error e, w1) =>
      some (errSyncResult .full e,
            { w1 with logs := updateLast w1.logs (failLog env e),
                      isSyncing := false })

/-- `incrementalSync()`: same discipline as `fullSync` around the
incremental body. -/
def incrementalSync (env : SyncEnv) (fuel : Nat) (w : World) :
    Option (SyncResult × World) :=
  if w.isSyncing then some (rejectResult .incremental, w)
  else
    match incSyncBody env fuel (syncEnter .incremental env w) with
    | none => none
    | some (.ok (dc, tc), w1) =>
      some (okSyncResult .incremental dc tc,
            { w1 with logs := updateLast w1.logs (completeLog env dc tc),
                      isSyncing := false })
    | some (.error e, w1) =>
      some (errSyncResult .incremental e,
            { w1 with logs := updateLast w1.logs (failLog env e),
                      isSyncing := false })

/-- The points a given document contributes (deterministic in the
environment), used to state the delete/re-ingest pairing. -/
def ptsOf (env : SyncEnv) (fuel : Nat) (doc : Document) : List VectorPoint :=
  match syncDocumentPoints env fuel doc with
  | some (.ok pts) => pts
  | _ => []

/-- Claim-side watermark: the maximal `completedAt` over COMPLETED runs
of either type, epoch zero when there is none. -/
def lastCompletedAtSpec (logs : List SyncLog) : Nat :=
  ((logs.filter (fun l => l.status == SyncStatus.completed)).map
    (fun l => l.completedAt.getD 0)).foldl max 0

/-- The documents the store reports as modified after `since`. -/
def docsModifiedSince (env : SyncEnv) (since : Nat) : List Document :=
  env.docs.filter (fun d => since < d.updatedAt)

/-- Claim C2's pairing property as stated, for a fixed environment and
starting world: every delete-by-document-id the run performs is paired
with a nonempty re-ingest of the same document in the same pass. -/
def IncPairing (env : SyncEnv) (w : World) : Prop :=
  ∀ fuel res w', incrementalSync env fuel w = some (res, w') →
    ∀ id, Op.delete id ∈ w'.trace.drop w.trace.length →
      ∃ pts, Op.upsert pts ∈ w'.trace.drop w.trace.length ∧ pts ≠ [] ∧
        ∀ p ∈ pts, p.payload.document_id = id

/-! ## Retrieval/augmentation engine (`rag.service.ts`) -/

/-- `RetrievedContext` from `rag.service.ts`. -/
structure RetrievedContext where
  documentId : String
  title : String
  content : String
  category : Option String
  score : Int
  chunkIndex : Option Nat
deriving DecidableEq

/-- A search hit's payload is a generic record; the fields the engine
casts out of it may be absent (`Option`). -/
structure SPayload where
  document_id : String
  chunk_text : Option String
  chunk_index : Option Nat
deriving DecidableEq

/-- `SearchResult` from `qdrant.service.ts` (the score is opaque to all
claims and carried as an integer). -/
structure SearchResult where
  id : String
  score : Int
  payload : SPayload
deriving DecidableEq

/-- External collaborators of the retrieval engine: the embedding
backend, the vector-index search (receiving the optional category
equality filter), and the document store. -/
structure RagEnv where
  embed : String → Except String Vec
  search : Vec → Nat → Option String → Except String (List SearchResult)
  docs : List Document

/-- `const filter = category ? {...} : undefined` — a JavaScript
truthiness test, so an empty-string category also means "no filter". -/
def categoryFilter (category : Option String) : Option String :=
  match category with
  | some c => if c = "" then none else some c
  | none => none

/-- `[...new Set(xs)]`: deduplicate preserving first-occurrence order. -/
def dedupFirst (xs : List String) : List String :=
  xs.foldl (fun acc x => if acc.contains x then acc else acc ++ [x]) []

/-- `new Map(documents.map(d => [d.id, d])).get(id)`: the last entry
with a given key wins. -/
def lookupDoc (documents : List Document) (id : String) : Option Document :=
  documents.foldl (fun acc d => if d.id = id then some d else acc) none

/-- Joining one hit with its fetched document:
`chunk_text || doc.content` and `doc.category || null` are JavaScript
truthiness fallbacks (empty string behaves like absent). -/
def mkCtx (r : SearchResult) (doc : Document) : RetrievedContext :=
  { documentId := doc.id, title := doc.title,
    content :=
      match r.payload.chunk_text with
      | some t => if t = "" then doc.content else t
      | none => doc.content,
    category :=
      match doc.category with
      | some c => if c = "" then none else some c
      | none => none,
    score := r.score,
    chunkIndex := r.payload.chunk_index }

/-- The `for (const result of searchResults)` join loop: hits whose
document no longer exists are skipped, the rest keep the index's
order. -/
def buildContexts (documents : List Document) :
    List SearchResult → List RetrievedContext
  | [] => []
  | r :: rest =>
    match lookupDoc documents r.payload.document_id with
    | none => buildContexts documents rest
    | some doc => mkCtx r doc :: buildContexts documents rest

/-- `searchRelevantContext(query, limit, category)`: embed the query,
search the index, batch-fetch the hit documents, join; any embedding or
search error degrades to the empty list. -/
def searchRelevantContext (env : RagEnv) (query : String) (limit : Nat)
    (category : Option String) : List RetrievedContext :=
  match env.embed query with
  | .error _ => []
  | .ok queryEmbedding =>
    match env.search queryEmbedding limit (categoryFilter category) with
    | .error _ => []
    | .ok searchResults =>
      if searchResults.isEmpty then []
      else
        let documentIds := dedupFirst (searchResults.map (fun r => r.payload.document_id))
        let documents := env.docs.filter (fun d => documentIds.contains d.id)
        buildContexts documents searchResults

/-- The body of `contexts.map((ctx, index) => ...)` in
`formatContextForPrompt`: the header carries the parenthesized
category only when `ctx.category` is truthy. -/
def formatItem (index : Nat) (ctx : RetrievedContext) : String :=
  let header :=
    match ctx.category with
    | some c =>
      if c = "" then "[" ++ toString (index + 1) ++ "] " ++ ctx.title
      else "[" ++ toString (index + 1) ++ "] " ++ ctx.title ++ " (" ++ c ++ ")"
    | none => "[" ++ toString (index + 1) ++ "] " ++ ctx.title
  header ++ "\n" ++ ctx.content

/-- `contexts.map((ctx, index) => ...)` with its running index. -/
def formatList (index : Nat) : List RetrievedContext → List String
  | [] => []
  | c :: rest => formatItem index c :: formatList (index + 1) rest

/-- `Array.prototype.join(sep)`. -/
def joinSep (sep : String) : List String → String
  | [] => ""
  | [s] => s
  | s :: rest => s ++ sep ++ joinSep sep rest

/-- `formatContextForPrompt(contexts)`. -/
def formatContextForPrompt (contexts : List RetrievedContext) : String :=
  if contexts.isEmpty then ""
  else joinSep "\n\n---\n\n" (formatList 0 contexts)

/-- The `{prompt, contexts}` record `getAugmentedPrompt` returns. -/
structure AugResult where
  prompt : String
  contexts : List RetrievedContext
deriving DecidableEq

/-- `getAugmentedPrompt(userMessage, category)`: search with limit 3,
format; a falsy (empty) context text yields the unchanged message and
no contexts, otherwise the fixed `<context>` template. -/
def getAugmentedPrompt (env : RagEnv) (userMessage : String)
    (category : Option String) : AugResult :=
  let contexts := searchRelevantContext env userMessage 3 category
  let contextText := formatContextForPrompt contexts
  if contextText = "" then ⟨userMessage, []⟩
  else
    ⟨"<context>\n" ++ contextText ++ "\n</context>\n\nQuestion: " ++ userMessage,
     contexts⟩

/-! ## Fixtures used by witnesses and counterexamples -/

/-- Twelve characters of non-whitespace text. -/
def xs12 : List Char := List.replicate 12 'x'

/-- A document long enough that `needsChunking` is true. -/
def longDoc : Document :=
  ⟨"d-long", "T", String.mk (List.replicate 1200 'x'), none, 0, 0⟩

/-- A short document modified after the last completed sync. -/
def cexDoc : Document := ⟨"d1", "T", "short", none, 0, 10⟩

/-- A COMPLETED sync-log row with `completedAt = 5`. -/
def cexLog : SyncLog := ⟨0, .full, .completed, 1, 1, none, 1, some 5⟩

/-- An idle starting world with one completed run on record. -/
def cexWorld : World := ⟨false, [cexLog], [], []⟩

/-- A world whose single-flight flag is held by an in-flight sync. -/
def busyWorld : World := ⟨true, [], [], []⟩

/-- An environment whose embedding backend fails. -/
def cexEnvFail : SyncEnv := ⟨[cexDoc], none, fun _ => .error "boom", none, none, 100⟩

/-- An environment where everything succeeds. -/
def cexEnvOk : SyncEnv := ⟨[cexDoc], none, fun _ => .ok [], none, none, 100⟩

/-- A retrieval environment whose embedding call fails. -/
def ragEnvEmbedErr : RagEnv := ⟨fun _ => .error "down", fun _ _ _ => .ok [], []⟩

/-- A retrieval environment whose vector search fails. -/
def ragEnvSearchErr : RagEnv := ⟨fun _ => .ok [], fun _ _ _ => .error "down", []⟩

/-- A retrieval environment returning one hit with a live document and
one hit whose document no longer exists. -/
def ragEnvHit : RagEnv :=
  ⟨fun _ => .ok [], fun _ _ _ => .ok [⟨"p1", 9, ⟨"dX", some "chunk text", some 2⟩⟩,
                                      ⟨"p2", 8, ⟨"gone", none, none⟩⟩],
   [⟨"dX", "Doc X", "full content", some "", 0, 0⟩]⟩

/-- A context with a present category. -/
def ctxFaq : RetrievedContext := ⟨"1", "A", "x", some "faq", 0, none⟩

/-- A context without a category. -/
def ctxPlain : RetrievedContext := ⟨"2", "B", "y", none, 0, none⟩

/-- A context with an empty-string category. -/
def ctxBlank : RetrievedContext := ⟨"3", "C", "z", some "", 0, none⟩

/-! ## Lemmas: retrieval/augmentation engine -/

theorem lookupDoc_filter_eq (docs : List Document) (p : Document → Bool) (id : String)
    (h : ∀ d ∈ docs, d.id = id → p d = true) :
    lookupDoc (docs.filter p) id = lookupDoc docs id := by
  unfold lookupDoc
  suffices hgen : ∀ acc : Option Document,
      (docs.filter p).foldl (fun acc d => if d.id = id then some d else acc) acc =
      docs.foldl (fun acc d => if d.id = id then some d else acc) acc from hgen none
  induction docs with
  | nil => intro acc; rfl
  | cons d rest ih =>
    intro acc
    by_cases hp : p d = true
    · simp only [List.filter_cons, hp, if_true, List.foldl_cons]
      exact ih (fun x hx hxid => h x (List.mem_cons_of_mem d hx) hxid) _
    · have hdid : ¬ d.id = id := fun hdid => hp (h d (List.mem_cons_self d rest) hdid)
      simp only [List.filter_cons, hp, if_false, List.foldl_cons, if_neg hdid]
      exact ih (fun x hx hxid => h x (List.mem_cons_of_mem d hx) hxid) _

theorem dedupFirst_mem (xs : List String) (y : String) (h : y ∈ xs) : y ∈ dedupFirst xs := by
  unfold dedupFirst
  suffices hgen : ∀ acc : List String, y ∈ acc ∨ y ∈ xs →
      y ∈ xs.foldl (fun acc x => if acc.contains x then acc else acc ++ [x]) acc from
    hgen [] (Or.inr h)
  clear h
  induction xs with
  | nil =>
    intro acc hacc
    rcases hacc with hacc | hacc
    · exact hacc
    · cases hacc
  | cons x rest ih =>
    intro acc hacc
    simp only [List.foldl_cons]
    apply ih
    rcases hacc with hacc | hacc
    · left; split
      · exact hacc
      · exact List.mem_append_left _ hacc
    · rcases List.mem_cons.mp hacc with rfl | hacc
      · left; split
        · next hc => exact List.elem_iff.mp hc
        · exact List.mem_append_right _ (List.mem_singleton.mpr rfl)
      · right; exact hacc

theorem buildContexts_eq_filterMap (documents : List Document) (rs : List SearchResult) :
    buildContexts documents rs =
      rs.filterMap (fun r => (lookupDoc documents r.payload.document_id).map (mkCtx r)) := by
  induction rs with
  | nil => rfl
  | cons r rest ih =>
    cases h : lookupDoc documents r.payload.document_id with
    | none => simp [buildContexts, h, List.filterMap_cons, ih]
    | some doc => simp [buildContexts, h, List.filterMap_cons, ih]

theorem formatItem_length_pos (i : Nat) (c : RetrievedContext) :
    0 < (formatItem i c).length := by
  have h1 : ("[" : String).length = 1 := rfl
  rcases c with ⟨did, title, content, cat, score, ci⟩
  rcases cat with _ | s
  · show 0 < (("[" ++ toString (i + 1) ++ "] " ++ title) ++ "\n" ++ content).length
    simp only [String.length_append]; omega
  · show 0 <
      ((if s = "" then "[" ++ toString (i + 1) ++ "] " ++ title
        else "[" ++ toString (i + 1) ++ "] " ++ title ++ " (" ++ s ++ ")") ++
        "\n" ++ content).length
    by_cases hs : s = ""
    · rw [if_pos hs]; simp only [String.length_append]; omega
    · rw [if_neg hs]; simp only [String.length_append]; omega

theorem joinSep_length_ge (sep s : String) (rest : List String) :
    s.length ≤ (joinSep sep (s :: rest)).length := by
  cases rest with
  | nil => exact Nat.le_refl _
  | cons t ts => simp only [joinSep, String.length_append]; omega

theorem formatContextForPrompt_ne_empty (c : RetrievedContext) (cs : List RetrievedContext) :
    formatContextForPrompt (c :: cs) ≠ "" := by
  intro h
  have h1 : 0 < (formatContextForPrompt (c :: cs)).length := by
    unfold formatContextForPrompt
    simp only [List.isEmpty_cons, if_neg]
    calc 0 < (formatItem 0 c).length := formatItem_length_pos 0 c
      _ ≤ (joinSep "\n\n---\n\n" (formatItem 0 c :: formatList 1 cs)).length :=
        joinSep_length_ge _ _ _
  rw [h] at h1
  exact Nat.lt_irrefl 0 h1

theorem formatList_blank_eq_none (l1 : List RetrievedContext) :
    ∀ (i : Nat) (ctx : RetrievedContext) (l2 : List RetrievedContext),
      ctx.category = some "" →
      formatList i (l1 ++ ctx :: l2) =
        formatList i (l1 ++ { ctx with category := none } :: l2) := by
  induction l1 with
  | nil =>
    intro i ctx l2 hc
    simp only [List.nil_append, formatList]
    congr 1
    unfold formatItem
    rw [hc]
    simp
  | cons d rest ih =>
    intro i ctx l2 hc
    show formatItem i d :: formatList (i + 1) (rest ++ ctx :: l2)
       = formatItem i d :: formatList (i + 1) (rest ++ { ctx with category := none } :: l2)
    rw [ih (i + 1) ctx l2 hc]

/-- C10: `formatContextForPrompt` tests the category for truthiness
rather than for null, so a context whose category is null, undefined,
or the empty string renders the plain `[i] Title` header, only a
non-empty category produces `[i] Title (category)`, and an
empty-string category is interchangeable with an absent one. -/
theorem formatContext_category_truthiness :
    (∀ (i : Nat) (ctx : RetrievedContext),
       ctx.category = none ∨ ctx.category = some "" →
       formatItem i ctx =
         "[" ++ toString (i + 1) ++ "] " ++ ctx.title ++ "\n" ++ ctx.content) ∧
    (∀ (i : Nat) (ctx : RetrievedContext) (c : String),
       ctx.category = some c → c ≠ "" →
       formatItem i ctx =
         "[" ++ toString (i + 1) ++ "] " ++ ctx.title ++ " (" ++ c ++ ")" ++
           "\n" ++ ctx.content) ∧
    (∀ (l1 l2 : List RetrievedContext) (ctx : RetrievedContext),
       ctx.category = some "" →
       formatContextForPrompt (l1 ++ ctx :: l2) =
         formatContextForPrompt (l1 ++ { ctx with category := none } :: l2)) := by
  refine ⟨?_, ?_, ?_⟩
  · intro i ctx h
    rcases ctx with ⟨did, title, content, cat, score, ci⟩
    rcases h with h | h <;> simp only at h <;> subst h <;> rfl
  · intro i ctx c hc hne
    rcases ctx with ⟨did, title, content, cat, score, ci⟩
    simp only at hc
    subst hc
    show (if c = "" then "[" ++ toString (i + 1) ++ "] " ++ title
          else "[" ++ toString (i + 1) ++ "] " ++ title ++ " (" ++ c ++ ")") ++
           "\n" ++ content =
         "[" ++ toString (i + 1) ++ "] " ++ title ++ " (" ++ c ++ ")" ++ "\n" ++ content
    rw [if_neg hne]
  · intro l1 l2 ctx hc
    have e1 : (l1 ++ ctx :: l2).isEmpty = false := by cases l1 <;> rfl
    have e2 : (l1 ++ { ctx with category := none } :: l2).isEmpty = false := by
      cases l1 <;> rfl
    unfold formatContextForPrompt
    rw [e1, e2]
    simp only [Bool.false_eq_true, if_false]
    rw [formatList_blank_eq_none l1 0 ctx l2 hc]

/-- Witness for C10 at concrete contexts. -/
theorem formatContext_category_truthiness_witness :
    formatItem 0 ctxBlank =
      "[" ++ toString (0 + 1) ++ "] " ++ ctxBlank.title ++ "\n" ++ ctxBlank.content ∧
    formatItem 1 ctxFaq =
      "[" ++ toString (1 + 1) ++ "] " ++ ctxFaq.title ++ " (" ++ "faq" ++ ")" ++
        "\n" ++ ctxFaq.content ∧
    formatContextForPrompt [ctxFaq, ctxBlank] =
      formatContextForPrompt [ctxFaq, { ctxBlank with category := none }] :=
  ⟨formatContext_category_truthiness.1 0 ctxBlank (Or.inr rfl),
   formatContext_category_truthiness.2.1 1 ctxFaq "faq" rfl (by decide),
   formatContext_category_truthiness.2.2 [ctxFaq] [] ctxBlank rfl⟩

/-- C9: `getAugmentedPrompt` returns the query unchanged with no
contexts whenever the context search yields nothing, and otherwise the
fixed `<context>` template followed by `Question: {query}` together
with the non-empty context list. -/
theorem getAugmentedPrompt_spec :
    ∀ (env : RagEnv) (q : String) (cat : Option String),
      (searchRelevantContext env q 3 cat = [] →
         getAugmentedPrompt env q cat = ⟨q, []⟩) ∧
      (∀ c cs, searchRelevantContext env q 3 cat = c :: cs →
         getAugmentedPrompt env q cat =
           ⟨"<context>\n" ++ formatContextForPrompt (c :: cs) ++
              "\n</context>\n\nQuestion: " ++ q, c :: cs⟩ ∧
         c :: cs ≠ ([] : List RetrievedContext)) := by
  intro env q cat
  constructor
  · intro h
    unfold getAugmentedPrompt
    rw [h]
    rfl
  · intro c cs h
    refine ⟨?_, List.cons_ne_nil c cs⟩
    unfold getAugmentedPrompt
    rw [h, if_neg (formatContextForPrompt_ne_empty c cs)]

/-- Witness for C9: an erroring environment hits the no-context branch,
a populated one hits the template branch. -/
theorem getAugmentedPrompt_spec_witness :
    getAugmentedPrompt ragEnvEmbedErr "hi" none = ⟨"hi", []⟩ ∧
    ∃ c cs,
      getAugmentedPrompt ragEnvHit "q" none =
        ⟨"<context>\n" ++ formatContextForPrompt (c :: cs) ++
           "\n</context>\n\nQuestion: " ++ "q", c :: cs⟩ :=
  ⟨(getAugmentedPrompt_spec ragEnvEmbedErr "hi" none).1 rfl,
   ⟨_, _, ((getAugmentedPrompt_spec ragEnvHit "q" none).2 _ _ rfl).1⟩⟩

/-- C8: `searchRelevantContext` degrades every embedding or search
error to the empty list, and on success joins each hit (in the index's
returned order) against the document store, silently dropping hits
whose document no longer resolves. -/
theorem searchRelevantContext_spec :
    (∀ (env : RagEnv) (q : String) (limit : Nat) (cat : Option String) (e : String),
       env.embed q = .error e → searchRelevantContext env q limit cat = []) ∧
    (∀ (env : RagEnv) (q : String) (limit : Nat) (cat : Option String) (v : Vec)
       (e : String), env.embed q = .ok v →
       env.search v limit (categoryFilter cat) = .error e →
       searchRelevantContext env q limit cat = []) ∧
    (∀ (env : RagEnv) (q : String) (limit : Nat) (cat : Option String) (v : Vec)
       (rs : List SearchResult), env.embed q = .ok v →
       env.search v limit (categoryFilter cat) = .ok rs →
       searchRelevantContext env q limit cat =
         rs.filterMap
           (fun r => (lookupDoc env.docs r.payload.document_id).map (mkCtx r))) := by
  refine ⟨?_, ?_, ?_⟩
  · intro env q limit cat e h
    unfold searchRelevantContext
    rw [h]
  · intro env q limit cat v e h1 h2
    unfold searchRelevantContext
    simp only [h1, h2]
  · intro env q limit cat v rs h1 h2
    unfold searchRelevantContext
    simp only [h1, h2]
    cases rs with
    | nil => rfl
    | cons r rest =>
      simp only [List.isEmpty_cons, Bool.false_eq_true, if_false]
      rw [buildContexts_eq_filterMap]
      apply List.filterMap_congr
      intro x hx
      rw [lookupDoc_filter_eq]
      intro d _ hdid
      rw [hdid]
      exact List.elem_iff.mpr
        (dedupFirst_mem _ _ (List.mem_map_of_mem (fun r => r.payload.document_id) hx))

/-- Witness for C8: the three branches at concrete environments. -/
theorem searchRelevantContext_spec_witness :
    searchRelevantContext ragEnvEmbedErr "q" 3 none = [] ∧
    searchRelevantContext ragEnvSearchErr "q" 3 none = [] ∧
    ∃ rs : List SearchResult, searchRelevantContext ragEnvHit "q" 3 none =
      rs.filterMap
        (fun r => (lookupDoc ragEnvHit.docs r.payload.document_id).map (mkCtx r)) :=
  ⟨searchRelevantContext_spec.1 ragEnvEmbedErr "q" 3 none "down" rfl,
   searchRelevantContext_spec.2.1 ragEnvSearchErr "q" 3 none [] "down" rfl rfl,
   ⟨_, searchRelevantContext_spec.2.2 ragEnvHit "q" 3 none [] _ rfl rfl⟩⟩

/-! ## Lemmas: break-point search -/

theorem keepLastLate_eq_spec (len : Nat) (ms : List (Nat × Nat)) :
    keepLastLate len ms = lastLateSpec len ms := by
  induction ms using List.reverseRecOn with
  | nil => rfl
  | append_singleton ms m ih =>
    by_cases hq : 3 * len < 5 * m.1
    · simp [keepLastLate, lastLateSpec, List.foldl_append, List.filter_append, hq,
        List.getLast?_concat]
    · simp only [keepLastLate, lastLateSpec, List.foldl_append, List.filter_append,
        List.foldl_cons, List.foldl_nil, if_neg hq]
      have hfilter : List.filter (fun m => decide (3 * len < 5 * m.1)) [m] = [] := by
        simp [hq]
      rw [hfilter, List.append_nil]
      exact ih

/-- C6: for the window `[start, start + maxChunkSize)`, `findBreakPoint`
returns the end offset of the last match of the first pattern (paragraph
> sentence > clause > whitespace) having any match whose offset lies
strictly beyond 60% of the window length, and falls back to the hard
boundary `start + maxChunkSize` when no pattern qualifies. -/
theorem findBreakPoint_matches_spec (text : List Char) (start : Int) (maxCS : Nat) :
    findBreakPoint text start (start + (maxCS : Int)) = findBreakPointSpec text start maxCS := by
  unfold findBreakPoint findBreakPointSpec
  simp only [keepLastLate_eq_spec, List.findSome?_cons, List.findSome?_nil]
  rcases lastLateSpec _ (execAll BreakPat.par _) with _ | m1
  · rcases lastLateSpec _ (execAll BreakPat.sentence _) with _ | m2
    · rcases lastLateSpec _ (execAll BreakPat.clause _) with _ | m3
      · rcases lastLateSpec _ (execAll BreakPat.ws _) with _ | m4 <;> rfl
      · rfl
    · rfl
  · rfl

/-! ## Lemmas: non-termination of the chunking loop -/

theorem wsRunLen_le (l : List Char) : wsRunLen l ≤ l.length :=
  List.Sublist.length_le (List.takeWhile_sublist isWsChar)

theorem matchAt_le (p : BreakPat) (l : List Char) (k : Nat) (h : matchAt p l = some k) :
    k ≤ l.length := by
  cases p with
  | par =>
    cases l with
    | nil => simp [matchAt] at h
    | cons a t =>
      cases t with
      | nil => simp [matchAt] at h
      | cons b r =>
        simp only [matchAt] at h
        split at h
        · cases h; simp only [List.length_cons]; omega
        · cases h
  | sentence =>
    cases l with
    | nil => simp [matchAt] at h
    | cons c rest =>
      simp only [matchAt] at h
      split at h
      · cases h
        have := wsRunLen_le rest
        simp only [List.length_cons]
        omega
      · cases h
  | clause =>
    cases l with
    | nil => simp [matchAt] at h
    | cons c rest =>
      simp only [matchAt] at h
      split at h
      · cases h
        have := wsRunLen_le rest
        simp only [List.length_cons]
        omega
      · cases h
  | ws =>
    simp only [matchAt] at h
    split at h
    · cases h; exact wsRunLen_le l
    · cases h

theorem execAllAux_bounds (p : BreakPat) :
    ∀ (fuel : Nat) (l : List Char) (pos : Nat) (m : Nat × Nat),
      m ∈ execAllAux p fuel l pos → pos ≤ m.1 ∧ m.1 + m.2 ≤ pos + l.length := by
  intro fuel
  induction fuel with
  | zero =>
    intro l pos m hm
    simp [execAllAux] at hm
  | succ fuel ih =>
    intro l pos m hm
    cases l with
    | nil => simp [execAllAux] at hm
    | cons c rest =>
      rw [execAllAux] at hm
      cases hk : matchAt p (c :: rest) with
      | none =>
        rw [hk] at hm
        have := ih rest (pos + 1) m hm
        simp only [List.length_cons]
        omega
      | some k =>
        rw [hk] at hm
        have hkle := matchAt_le p (c :: rest) k hk
        rcases List.mem_cons.mp hm with rfl | hm
        · exact ⟨Nat.le_refl _, Nat.add_le_add_left hkle pos⟩
        · have := ih ((c :: rest).drop k) (pos + k) m hm
          rw [List.length_drop] at this
          omega

theorem keepLastLate_some (len : Nat) (ms : List (Nat × Nat)) (m : Nat × Nat)
    (h : keepLastLate len ms = some m) : m ∈ ms ∧ 3 * len < 5 * m.1 := by
  unfold keepLastLate at h
  suffices hgen : ∀ (ms : List (Nat × Nat)) (init : Option (Nat × Nat)),
      ms.foldl (fun acc x => if 3 * len < 5 * x.1 then some x else acc) init = some m →
      (m ∈ ms ∧ 3 * len < 5 * m.1) ∨ init = some m by
    rcases hgen ms none h with hh | hh
    · exact hh
    · cases hh
  intro ms'
  induction ms' with
  | nil =>
    intro init h'
    exact Or.inr h'
  | cons a t ih =>
    intro init h'
    rw [List.foldl_cons] at h'
    rcases ih _ h' with hh | hh
    · exact Or.inl ⟨List.mem_cons_of_mem a hh.1, hh.2⟩
    · by_cases hq : 3 * len < 5 * a.1
      · simp only [if_pos hq] at hh
        cases hh
        exact Or.inl ⟨List.mem_cons_self _ _, hq⟩
      · simp only [if_neg hq] at hh
        exact Or.inr hh

theorem jsSlice_length (l : List Char) (s e : Int) (h0 : 0 ≤ s) (hse : s ≤ e)
    (hel : e ≤ (l.length : Int)) : (jsSlice l s e).length = (e - s).toNat := by
  simp only [jsSlice]
  rw [if_neg (by omega : ¬ s < 0), if_neg (by omega : ¬ e < 0)]
  rw [min_eq_left (by omega : s ≤ (l.length : Int)), min_eq_left hel]
  by_cases hlt : s < e
  · rw [if_pos hlt]
    rw [List.length_take, List.length_drop]
    omega
  · rw [if_neg hlt]
    simp only [List.length_nil]
    omega

theorem findBreakPoint_cases (text : List Char) (start maxEnd : Int) :
    findBreakPoint text start maxEnd = maxEnd ∨
    ∃ i k : Nat, i + k ≤ (jsSlice text start maxEnd).length ∧
      3 * (jsSlice text start maxEnd).length < 5 * i ∧
      findBreakPoint text start maxEnd = start + (i : Int) + (k : Int) := by
  have hbr : ∀ (p : BreakPat) (m : Nat × Nat),
      keepLastLate (jsSlice text start maxEnd).length
        (execAll p (jsSlice text start maxEnd)) = some m →
      m.1 + m.2 ≤ (jsSlice text start maxEnd).length ∧
      3 * (jsSlice text start maxEnd).length < 5 * m.1 := by
    intro p m hm
    obtain ⟨hmem, hq⟩ := keepLastLate_some _ _ _ hm
    refine ⟨?_, hq⟩
    have := (execAllAux_bounds p _ _ 0 m hmem).2
    omega
  simp only [findBreakPoint]
  cases h1 : keepLastLate (jsSlice text start maxEnd).length
      (execAll BreakPat.par (jsSlice text start maxEnd)) with
  | some m => exact Or.inr ⟨m.1, m.2, (hbr _ m h1).1, (hbr _ m h1).2, rfl⟩
  | none =>
  cases h2 : keepLastLate (jsSlice text start maxEnd).length
      (execAll BreakPat.sentence (jsSlice text start maxEnd)) with
  | some m => exact Or.inr ⟨m.1, m.2, (hbr _ m h2).1, (hbr _ m h2).2, rfl⟩
  | none =>
  cases h3 : keepLastLate (jsSlice text start maxEnd).length
      (execAll BreakPat.clause (jsSlice text start maxEnd)) with
  | some m => exact Or.inr ⟨m.1, m.2, (hbr _ m h3).1, (hbr _ m h3).2, rfl⟩
  | none =>
  cases h4 : keepLastLate (jsSlice text start maxEnd).length
      (execAll BreakPat.ws (jsSlice text start maxEnd)) with
  | some m => exact Or.inr ⟨m.1, m.2, (hbr _ m h4).1, (hbr _ m h4).2, rfl⟩
  | none => exact Or.inl rfl

theorem computeEndChar_bounds (text : List Char) (start : Int)
    (hlen : 1000 < text.length) (h0 : 0 ≤ start) :
    200 ≤ computeEndChar text 1000 start ∧
      computeEndChar text 1000 start ≤ (text.length : Int) := by
  unfold computeEndChar
  by_cases hc : (text.length : Int) ≤ start + ((1000 : Nat) : Int)
  · rw [if_pos hc]
    constructor
    · omega
    · exact le_refl _
  · rw [if_neg hc]
    rcases findBreakPoint_cases text start (start + ((1000 : Nat) : Int)) with
      hfb | ⟨i, k, hik, hq, hfb⟩
    · rw [hfb]
      omega
    · rw [hfb]
      have hsl : (jsSlice text start (start + ((1000 : Nat) : Int))).length =
          ((start + ((1000 : Nat) : Int)) - start).toNat :=
        jsSlice_length _ _ _ h0 (by omega) (by omega)
      rw [hsl] at hik hq
      omega

theorem chunkLoop_default_none (text : List Char) (hlen : 1000 < text.length) :
    ∀ (fuel : Nat) (start : Int) (idx : Nat) (chunks : List Chunk)
      (skipped : List (Int × Int)),
      0 ≤ start → start < (text.length : Int) →
      chunkLoop text 1000 200 100 fuel start idx chunks skipped = none := by
  intro fuel
  induction fuel with
  | zero =>
    intro start idx chunks skipped _ _
    rfl
  | succ fuel ih =>
    intro start idx chunks skipped h0 hlt
    obtain ⟨hb1, hb2⟩ := computeEndChar_bounds text start hlen h0
    simp only [chunkLoop]
    rw [if_pos hlt]
    split
    · next hbr => exact absurd hbr (by omega)
    · next hbr => exact ih _ _ _ _ (by omega) (by omega)

theorem chunkText_default_none (text : List Char) (fuel : Nat)
    (hlen : 1000 < text.length) : chunkText text defaultChunkOptions fuel = none := by
  unfold chunkText chunkTextG defaultChunkOptions
  rw [if_neg (by omega : ¬ text.length ≤ 1000)]
  rw [chunkLoop_default_none text hlen fuel 0 0 [] [] (le_refl 0) (by omega)]
  rfl

/-- C5: the claim that `chunkText` terminates for every input and
options is false on the code — the only loop guard
(`startChar >= text.length - minChunkSize`) never fires with the
default options once `endChar` clamps to the text length, because the
new `startChar = text.length - chunkOverlap` stays `chunkOverlap -
minChunkSize` characters short of it; the loop therefore runs forever
(returns `none` for every fuel) on every text longer than
`maxChunkSize`, default options included. -/
theorem chunkText_no_termination_guard (text : List Char) (fuel : Nat)
    (hlen : 1000 < text.length) :
    chunkText text defaultChunkOptions fuel = none :=
  chunkText_default_none text fuel hlen

/-- Witness for C5: a 1203-character all-`x` text with default options
never returns, whatever the fuel. -/
theorem chunkText_no_termination_guard_witness :
    1000 < (List.replicate 1203 'x').length ∧
      chunkText (List.replicate 1203 'x') defaultChunkOptions 5 = none :=
  ⟨by simp, chunkText_no_termination_guard (List.replicate 1203 'x') 5 (by simp)⟩

/-- C7: for a document long enough that `needsChunking` holds,
`syncDocument` never builds its per-chunk points and never reaches its
upsert call, because it invokes `chunkText` with the default options,
which diverges exactly when `needsChunking` is true; the claimed
chunked-path behaviour is unreachable in the code. -/
theorem syncDocument_chunked_path_diverges :
    ∀ (env : SyncEnv) (fuel : Nat) (w : World),
      syncDocumentPoints env fuel longDoc = none ∧
      syncDocument env fuel longDoc w = none := by
  intro env fuel w
  have hneeds : needsChunking (prepareTextForEmbedding longDoc.title longDoc.content) 250 = true := by
    decide
  have hlen : 1000 < (prepareTextForEmbedding longDoc.title longDoc.content).data.length := by
    decide
  have hpts : syncDocumentPoints env fuel longDoc = none := by
    unfold syncDocumentPoints
    rw [if_pos hneeds, chunkText_default_none _ fuel hlen]
  refine ⟨hpts, ?_⟩
  unfold syncDocument
  rw [hpts]

/-- C4 counterexample: with options `{maxChunkSize: 10, chunkOverlap: 2,
minChunkSize: 5}` on twelve `x` characters, `chunkText` terminates with
the single chunk `[0, 10)` and the two trailing non-whitespace
characters lie in no emitted chunk's span — sub-`minChunkSize` tail
fragments are silently dropped. -/
theorem chunkText_coverage_cex : ¬ SpanCoverage xs12 ⟨10, 2, 5⟩ := by
  intro h
  have hrun : chunkText xs12 ⟨10, 2, 5⟩ 2 = some [⟨List.replicate 10 'x', 0, 0, 10⟩] := by
    decide
  have h10 := h 2 _ hrun 10 (by decide) (by decide)
  exact absurd h10 (by decide)

theorem chunkLoop_cov (text : List Char) (maxCS ov minCS : Nat) :
    ∀ (fuel : Nat) (start : Int) (idx : Nat) (chunks : List Chunk)
      (skipped : List (Int × Int)) (out : List Chunk × List (Int × Int)),
      chunkLoop text maxCS ov minCS fuel start idx chunks skipped = some out →
      (∀ j : Int, 0 ≤ j → j < start →
        (∃ c ∈ chunks, c.startChar ≤ j ∧ j < c.endChar) ∨
        (∃ s ∈ skipped, s.1 ≤ j ∧ j < s.2)) →
      ∀ j : Int, 0 ≤ j → j < (text.length : Int) →
        (∃ c ∈ out.1, c.startChar ≤ j ∧ j < c.endChar) ∨
        (∃ s ∈ out.2, s.1 ≤ j ∧ j < s.2) ∨
        (text.length : Int) - (minCS : Int) ≤ j := by
  intro fuel
  induction fuel with
  | zero =>
    intro start idx chunks skipped out hrun
    simp only [chunkLoop] at hrun
    exact Option.noConfusion hrun
  | succ fuel ih =>
    intro start idx chunks skipped out hrun hpre j hj0 hjlen
    simp only [chunkLoop] at hrun
    by_cases hstart : start < (text.length : Int)
    · rw [if_pos hstart] at hrun
      have hcov' : ∀ jj : Int, 0 ≤ jj → jj < computeEndChar text maxCS start →
          (∃ c ∈ (if minCS ≤ (jsTrim (jsSlice text start (computeEndChar text maxCS start))).length
                  then chunks ++ [⟨jsTrim (jsSlice text start (computeEndChar text maxCS start)),
                                   idx, start, computeEndChar text maxCS start⟩]
                  else chunks), c.startChar ≤ jj ∧ jj < c.endChar) ∨
          (∃ s ∈ (if minCS ≤ (jsTrim (jsSlice text start (computeEndChar text maxCS start))).length
                  then skipped
                  else skipped ++ [(start, computeEndChar text maxCS start)]),
             s.1 ≤ jj ∧ jj < s.2) := by
        intro jj hjj0 hjje
        by_cases hm : minCS ≤ (jsTrim (jsSlice text start (computeEndChar text maxCS start))).length
        · rw [if_pos hm, if_pos hm]
          by_cases hjs : jj < start
          · rcases hpre jj hjj0 hjs with ⟨c, hc, hcs⟩ | ⟨s, hs, hss⟩
            · exact Or.inl ⟨c, List.mem_append_left _ hc, hcs⟩
            · exact Or.inr ⟨s, hs, hss⟩
          · exact Or.inl ⟨_, List.mem_append_right _ (List.mem_singleton.mpr rfl),
              not_lt.mp hjs, hjje⟩
        · rw [if_neg hm, if_neg hm]
          by_cases hjs : jj < start
          · rcases hpre jj hjj0 hjs with ⟨c, hc, hcs⟩ | ⟨s, hs, hss⟩
            · exact Or.inl ⟨c, hc, hcs⟩
            · exact Or.inr ⟨s, List.mem_append_left _ hs, hss⟩
          · exact Or.inr ⟨(start, computeEndChar text maxCS start),
              List.mem_append_right _ (List.mem_singleton.mpr rfl),
              not_lt.mp hjs, hjje⟩
      split at hrun
      · next hbr =>
        cases hrun
        by_cases hje : j < computeEndChar text maxCS start
        · rcases hcov' j hj0 hje with hh | hh
          · exact Or.inl hh
          · exact Or.inr (Or.inl hh)
        · refine Or.inr (Or.inr ?_)
          omega
      · next hbr =>
        exact ih _ _ _ _ out hrun
          (fun jj hjj0 hjj => hcov' jj hjj0 (by omega)) j hj0 hjlen
    · rw [if_neg hstart] at hrun
      cases hrun
      rcases hpre j hj0 (by omega) with hh | hh
      · exact Or.inl hh
      · exact Or.inr (Or.inl hh)

/-- C4 amended: whenever `chunkText` terminates, every (non-whitespace)
character of the input lies inside the span of some emitted chunk,
except possibly characters inside a processed window that was skipped
for having trimmed length below `minChunkSize`, or inside the final
tail of fewer than `minChunkSize` characters; for texts of length at
most `maxChunkSize` the single emitted chunk spans the whole text. -/
theorem chunkText_coverage_amended :
    ∀ (text : List Char) (opts : ChunkOptions) (fuel : Nat)
      (out : List Chunk × List (Int × Int)),
      chunkTextG text opts fuel = some out →
      ∀ (i : Nat) (h : i < text.length), isWsChar (text.get ⟨i, h⟩) = false →
        (∃ c ∈ out.1, c.startChar ≤ (i : Int) ∧ (i : Int) < c.endChar) ∨
        (∃ s ∈ out.2, s.1 ≤ (i : Int) ∧ (i : Int) < s.2) ∨
        (text.length : Int) - (opts.minChunkSize : Int) ≤ (i : Int) := by
  intro text opts fuel out hrun i hi _
  unfold chunkTextG at hrun
  by_cases hshort : text.length ≤ opts.maxChunkSize
  · rw [if_pos hshort] at hrun
    cases hrun
    exact Or.inl ⟨_, List.mem_singleton.mpr rfl, Int.natCast_nonneg i,
      (by exact_mod_cast hi : (i : Int) < (text.length : Int))⟩
  · rw [if_neg hshort] at hrun
    exact chunkLoop_cov text _ _ _ fuel 0 0 [] [] out hrun
      (fun jj hjj0 hjj => absurd hjj (by omega)) i (by omega) (by exact_mod_cast hi)

/-- Witness for the amended C4 at a concrete terminating input. -/
theorem chunkText_coverage_amended_witness :
    ∃ out : List Chunk × List (Int × Int),
      chunkTextG "abcd".data ⟨2, 0, 1⟩ 5 = some out ∧
      ((∃ c ∈ out.1, c.startChar ≤ ((1 : Nat) : Int) ∧ ((1 : Nat) : Int) < c.endChar) ∨
       (∃ s ∈ out.2, s.1 ≤ ((1 : Nat) : Int) ∧ ((1 : Nat) : Int) < s.2) ∨
       (("abcd".data.length : Int) - (((⟨2, 0, 1⟩ : ChunkOptions).minChunkSize : Nat) : Int) ≤
         ((1 : Nat) : Int))) :=
  ⟨_, rfl, chunkText_coverage_amended "abcd".data ⟨2, 0, 1⟩ 5 _ rfl 1 (by decide) (by decide)⟩

/-! ## Lemmas: sync orchestrator -/

theorem syncDocument_pres (env : SyncEnv) (fuel : Nat) (d : Document) (w : World)
    (r : Except String Nat) (w' : World) (h : syncDocument env fuel d w = some (r, w')) :
    w'.isSyncing = w.isSyncing ∧ w'.logs = w.logs := by
  unfold syncDocument at h
  split at h
  · exact Option.noConfusion h
  · cases h; exact ⟨rfl, rfl⟩
  · split at h
    · cases h; exact ⟨rfl, rfl⟩
    · split at h
      · cases h; exact ⟨rfl, rfl⟩
      · cases h; exact ⟨rfl, rfl⟩

theorem syncDocsLoop_pres (env : SyncEnv) (fuel : Nat) :
    ∀ (docs : List Document) (total : Nat) (w : World) (r : Except String Nat) (w' : World),
      syncDocsLoop env fuel docs total w = some (r, w') →
      w'.isSyncing = w.isSyncing ∧ w'.logs = w.logs := by
  intro docs
  induction docs with
  | nil =>
    intro total w r w' h
    cases h
    exact ⟨rfl, rfl⟩
  | cons d rest ih =>
    intro total w r w' h
    unfold syncDocsLoop at h
    split at h
    · exact Option.noConfusion h
    · rename_i e w1 heq
      cases h
      exact syncDocument_pres env fuel d w _ _ heq
    · rename_i n w1 heq
      obtain ⟨p1, p2⟩ := syncDocument_pres env fuel d w _ _ heq
      obtain ⟨q1, q2⟩ := ih _ _ _ _ h
      exact ⟨q1.trans p1, q2.trans p2⟩

theorem incDocsLoop_pres (env : SyncEnv) (fuel : Nat) :
    ∀ (docs : List Document) (total : Nat) (w : World) (r : Except String Nat) (w' : World),
      incDocsLoop env fuel docs total w = some (r, w') →
      w'.isSyncing = w.isSyncing ∧ w'.logs = w.logs := by
  intro docs
  induction docs with
  | nil =>
    intro total w r w' h
    cases h
    exact ⟨rfl, rfl⟩
  | cons d rest ih =>
    intro total w r w' h
    unfold incDocsLoop at h
    split at h
    · cases h; exact ⟨rfl, rfl⟩
    · split at h
      · exact Option.noConfusion h
      · rename_i e w2 heq
        cases h
        exact syncDocument_pres env fuel d
          { w with points := deleteByDocumentId w.points d.id,
                   trace := w.trace ++ [Op.delete d.id] } _ _ heq
      · rename_i n w2 heq
        obtain ⟨p1, p2⟩ := syncDocument_pres env fuel d
          { w with points := deleteByDocumentId w.points d.id,
                   trace := w.trace ++ [Op.delete d.id] } _ _ heq
        obtain ⟨q1, q2⟩ := ih _ _ _ _ h
        exact ⟨q1.trans p1, q2.trans p2⟩

theorem fullSyncBody_pres (env : SyncEnv) (fuel : Nat) (w : World)
    (r : Except String (Nat × Nat)) (w' : World)
    (h : fullSyncBody env fuel w = some (r, w')) :
    w'.isSyncing = w.isSyncing ∧ w'.logs = w.logs := by
  unfold fullSyncBody at h
  split at h
  · cases h; exact ⟨rfl, rfl⟩
  · split at h
    · exact Option.noConfusion h
    · rename_i e w1 heq
      cases h
      exact syncDocsLoop_pres env fuel _ _ _ _ _ heq
    · rename_i t w1 heq
      cases h
      exact syncDocsLoop_pres env fuel _ _ _ _ _ heq

theorem incSyncBody_pres (env : SyncEnv) (fuel : Nat) (w : World)
    (r : Except String (Nat × Nat)) (w' : World)
    (h : incSyncBody env fuel w = some (r, w')) :
    w'.isSyncing = w.isSyncing ∧ w'.logs = w.logs := by
  unfold incSyncBody at h
  split at h
  · cases h; exact ⟨rfl, rfl⟩
  · split at h
    · exact Option.noConfusion h
    · rename_i e w1 heq
      cases h
      exact incDocsLoop_pres env fuel _ _ _ _ _ heq
    · rename_i t w1 heq
      cases h
      exact incDocsLoop_pres env fuel _ _ _ _ _ heq

theorem updateLast_append (xs : List SyncLog) (l : SyncLog) (f : SyncLog → SyncLog) :
    updateLast (xs ++ [l]) f = xs ++ [f l] := by
  induction xs with
  | nil => rfl
  | cons x xs ih =>
    cases xs with
    | nil => rfl
    | cons y ys =>
      show x :: updateLast ((y :: ys) ++ [l]) f = x :: ((y :: ys) ++ [f l])
      rw [ih]

theorem syncEnter_logs (t : SyncType) (env : SyncEnv) (w : World) :
    (syncEnter t env w).logs = w.logs ++ [startedLog t w.logs.length env.now] := rfl

/-- C1: while the in-memory `isSyncing` flag is set, `fullSync` and
`incrementalSync` return immediately with `success = false` and the
error `Sync already in progress`, leaving the state (in particular the
sync-log table) untouched; from an idle state a `fullSync` call
proceeds, appending exactly one log row that reaches a terminal status;
and the document loop never clears the flag, so every world a
concurrently arriving call can observe during the run still has the
flag set and is rejected. -/
theorem sync_single_flight :
    (∀ (env : SyncEnv) (fuel : Nat) (w : World), w.isSyncing = true →
       fullSync env fuel w = some (rejectResult .full, w) ∧
       incrementalSync env fuel w = some (rejectResult .incremental, w)) ∧
    (∀ (env : SyncEnv) (fuel : Nat) (w : World) (res : SyncResult) (w' : World),
       w.isSyncing = false → fullSync env fuel w = some (res, w') →
       ∃ l, w'.logs = w.logs ++ [l] ∧
         (l.status = SyncStatus.completed ∨ l.status = SyncStatus.failed)) ∧
    (∀ (env : SyncEnv) (fuel : Nat) (docs : List Document) (total : Nat) (w : World)
       (r : Except String Nat) (w' : World),
       syncDocsLoop env fuel docs total w = some (r, w') →
       w'.isSyncing = w.isSyncing) := by
  refine ⟨?_, ?_, ?_⟩
  · intro env fuel w h
    constructor
    · unfold fullSync
      rw [if_pos h]
    · unfold incrementalSync
      rw [if_pos h]
  · intro env fuel w res w' hflag hrun
    unfold fullSync at hrun
    rw [if_neg (by simp [hflag])] at hrun
    split at hrun
    · exact Option.noConfusion hrun
    · rename_i dc tc w1 heq
      cases hrun
      have hb := fullSyncBody_pres env fuel _ _ _ heq
      refine ⟨completeLog env dc tc (startedLog .full w.logs.length env.now), ?_, Or.inl rfl⟩
      show updateLast w1.logs (completeLog env dc tc) = _
      rw [hb.2, syncEnter_logs, updateLast_append]
    · rename_i e w1 heq
      cases hrun
      have hb := fullSyncBody_pres env fuel _ _ _ heq
      refine ⟨failLog env e (startedLog .full w.logs.length env.now), ?_, Or.inr rfl⟩
      show updateLast w1.logs (failLog env e) = _
      rw [hb.2, syncEnter_logs, updateLast_append]
  · intro env fuel docs total w r w' h
    exact (syncDocsLoop_pres env fuel docs total w r w' h).1

/-- Witness for C1: a rejected call on a busy world, a completed run on
an idle world, and flag preservation through a concrete document loop. -/
theorem sync_single_flight_witness :
    (fullSync cexEnvOk 1 busyWorld = some (rejectResult .full, busyWorld) ∧
     incrementalSync cexEnvOk 1 busyWorld = some (rejectResult .incremental, busyWorld)) ∧
    (∃ res w', fullSync cexEnvOk 1 cexWorld = some (res, w') ∧
       ∃ l, w'.logs = cexWorld.logs ++ [l] ∧
         (l.status = SyncStatus.completed ∨ l.status = SyncStatus.failed)) ∧
    (∃ r w', syncDocsLoop cexEnvOk 1 [cexDoc] 0 cexWorld = some (r, w') ∧
       w'.isSyncing = cexWorld.isSyncing) :=
  ⟨sync_single_flight.1 cexEnvOk 1 busyWorld rfl,
   ⟨_, _, rfl, sync_single_flight.2.1 cexEnvOk 1 cexWorld _ _ rfl rfl⟩,
   ⟨_, _, rfl, sync_single_flight.2.2 cexEnvOk 1 [cexDoc] 0 cexWorld _ _ rfl⟩⟩

/-- C3: when the body of a run fails (document listing, embedding or
upsert error), the run reports `success = false` with zero counters and
the error message, the run's log row is rewritten to FAILED with that
message, the vector points and call trace are exactly those the body
left behind (no rollback of partial progress), and the single-flight
flag is false after every proceeding run, while a reentrancy rejection
returns with the state untouched. -/
theorem sync_failure_semantics :
    (∀ (env : SyncEnv) (fuel : Nat) (w : World) (res : SyncResult) (w' : World),
       w.isSyncing = false → fullSync env fuel w = some (res, w') →
       res.success = false →
       ∃ e bw, res = errSyncResult .full e ∧
         fullSyncBody env fuel (syncEnter .full env w) = some (.error e, bw) ∧
         w'.points = bw.points ∧ w'.trace = bw.trace ∧
         w'.logs = w.logs ++ [failLog env e (startedLog .full w.logs.length env.now)] ∧
         w'.isSyncing = false) ∧
    (∀ (env : SyncEnv) (fuel : Nat) (w : World) (res : SyncResult) (w' : World),
       w.isSyncing = false → incrementalSync env fuel w = some (res, w') →
       res.success = false →
       ∃ e bw, res = errSyncResult .incremental e ∧
         incSyncBody env fuel (syncEnter .incremental env w) = some (.error e, bw) ∧
         w'.points = bw.points ∧ w'.trace = bw.trace ∧
         w'.logs = w.logs ++ [failLog env e (startedLog .incremental w.logs.length env.now)] ∧
         w'.isSyncing = false) ∧
    (∀ (env : SyncEnv) (fuel : Nat) (w : World) (res : SyncResult) (w' : World),
       fullSync env fuel w = some (res, w') →
       (res = rejectResult .full ∧ w' = w) ∨ w'.isSyncing = false) ∧
    (∀ (env : SyncEnv) (fuel : Nat) (w : World) (res : SyncResult) (w' : World),
       incrementalSync env fuel w = some (res, w') →
       (res = rejectResult .incremental ∧ w' = w) ∨ w'.isSyncing = false) := by
  refine ⟨?_, ?_, ?_, ?_⟩
  · intro env fuel w res w' hflag hrun hsucc
    unfold fullSync at hrun
    rw [if_neg (by simp [hflag])] at hrun
    split at hrun
    · exact Option.noConfusion hrun
    · cases hrun
      simp [okSyncResult] at hsucc
    · rename_i e w1 heq
      cases hrun
      refine ⟨e, w1, rfl, heq, rfl, rfl, ?_, rfl⟩
      show updateLast w1.logs (failLog env e) = _
      rw [(fullSyncBody_pres env fuel _ _ _ heq).2, syncEnter_logs, updateLast_append]
  · intro env fuel w res w' hflag hrun hsucc
    unfold incrementalSync at hrun
    rw [if_neg (by simp [hflag])] at hrun
    split at hrun
    · exact Option.noConfusion hrun
    · cases hrun
      simp [okSyncResult] at hsucc
    · rename_i e w1 heq
      cases hrun
      refine ⟨e, w1, rfl, heq, rfl, rfl, ?_, rfl⟩
      show updateLast w1.logs (failLog env e) = _
      rw [(incSyncBody_pres env fuel _ _ _ heq).2, syncEnter_logs, updateLast_append]
  · intro env fuel w res w' hrun
    unfold fullSync at hrun
    by_cases hf : w.isSyncing = true
    · rw [if_pos hf] at hrun
      cases hrun
      exact Or.inl ⟨rfl, rfl⟩
    · rw [if_neg hf] at hrun
      split at hrun
      · exact Option.noConfusion hrun
      · cases hrun; exact Or.inr rfl
      · cases hrun; exact Or.inr rfl
  · intro env fuel w res w' hrun
    unfold incrementalSync at hrun
    by_cases hf : w.isSyncing = true
    · rw [if_pos hf] at hrun
      cases hrun
      exact Or.inl ⟨rfl, rfl⟩
    · rw [if_neg hf] at hrun
      split at hrun
      · exact Option.noConfusion hrun
      · cases hrun; exact Or.inr rfl
      · cases hrun; exact Or.inr rfl

/-- Witness for C3: a run whose embedding backend fails, and the flag
clause at the same input. -/
theorem sync_failure_semantics_witness :
    (∃ res w', fullSync cexEnvFail 1 cexWorld = some (res, w') ∧
       ∃ e bw, res = errSyncResult .full e ∧
         fullSyncBody cexEnvFail 1 (syncEnter .full cexEnvFail cexWorld) = some (.error e, bw) ∧
         w'.points = bw.points ∧ w'.trace = bw.trace ∧
         w'.logs = cexWorld.logs ++
           [failLog cexEnvFail e (startedLog .full cexWorld.logs.length cexEnvFail.now)] ∧
         w'.isSyncing = false) ∧
    (∃ res w', incrementalSync cexEnvFail 1 cexWorld = some (res, w') ∧
       ((res = rejectResult .incremental ∧ w' = cexWorld) ∨ w'.isSyncing = false)) :=
  ⟨⟨_, _, rfl, sync_failure_semantics.1 cexEnvFail 1 cexWorld _ _ rfl rfl rfl⟩,
   ⟨_, _, rfl, sync_failure_semantics.2.2.2 cexEnvFail 1 cexWorld _ _ rfl⟩⟩

theorem getLastSuccessfulSync_append (logs : List SyncLog) (l : SyncLog) :
    getLastSuccessfulSync (logs ++ [l]) =
      if l.status = SyncStatus.completed then
        match getLastSuccessfulSync logs with
        | none => some l
        | some b =>
          if b.completedAt.getD 0 < l.completedAt.getD 0 then some l
          else getLastSuccessfulSync logs
      else getLastSuccessfulSync logs := by
  unfold getLastSuccessfulSync
  rw [List.foldl_append]
  simp only [List.foldl_cons, List.foldl_nil]

theorem lastCompletedAtSpec_append (logs : List SyncLog) (l : SyncLog) :
    lastCompletedAtSpec (logs ++ [l]) =
      if l.status = SyncStatus.completed then
        max (lastCompletedAtSpec logs) (l.completedAt.getD 0)
      else lastCompletedAtSpec logs := by
  unfold lastCompletedAtSpec
  rw [List.filter_append]
  by_cases hc : l.status = SyncStatus.completed
  · rw [if_pos hc]
    have hf : List.filter (fun x => x.status == SyncStatus.completed) [l] = [l] := by
      simp [hc]
    rw [hf, List.map_append, List.foldl_append]
    simp
  · rw [if_neg hc]
    have hf : List.filter (fun x => x.status == SyncStatus.completed) [l] = [] := by
      simp [hc]
    rw [hf, List.append_nil]

theorem sinceOf_eq_spec (logs : List SyncLog) : sinceOf logs = lastCompletedAtSpec logs := by
  induction logs using List.reverseRecOn with
  | nil => rfl
  | append_singleton logs l ih =>
    unfold sinceOf
    rw [getLastSuccessfulSync_append, lastCompletedAtSpec_append]
    by_cases hc : l.status = SyncStatus.completed
    · rw [if_pos hc, if_pos hc]
      cases hg : getLastSuccessfulSync logs with
      | none =>
        have h0 : lastCompletedAtSpec logs = 0 := by
          rw [← ih]
          unfold sinceOf
          rw [hg]
        rw [h0]
        simp
      | some b =>
        have hb : lastCompletedAtSpec logs = b.completedAt.getD 0 := by
          rw [← ih]
          unfold sinceOf
          rw [hg]
        rw [hb]
        by_cases hlt : b.completedAt.getD 0 < l.completedAt.getD 0
        · simp only [hlt, if_true]
          omega
        · simp only [hlt, if_false]
          omega
    · rw [if_neg hc, if_neg hc]
      rw [← ih]
      rfl

theorem sinceOf_append_started (logs : List SyncLog) (t : SyncType) (idv now : Nat) :
    sinceOf (logs ++ [startedLog t idv now]) = sinceOf logs := by
  unfold sinceOf
  rw [getLastSuccessfulSync_append]
  rw [if_neg (by simp [startedLog])]

theorem syncDocumentPoints_ok (env : SyncEnv) (fuel : Nat) (d : Document)
    (pts : List VectorPoint)
    (h : syncDocumentPoints env fuel d = some (.ok pts)) :
    pts ≠ [] ∧ ∀ p ∈ pts, p.payload.document_id = d.id := by
  unfold syncDocumentPoints at h
  by_cases hn : needsChunking (prepareTextForEmbedding d.title d.content) 250 = true
  · rw [if_pos hn] at h
    have hlen : 1000 < (prepareTextForEmbedding d.title d.content).data.length := by
      have h250 : 250 < estimateTokens (prepareTextForEmbedding d.title d.content) := by
        simpa [needsChunking] using hn
      have hlen' : (prepareTextForEmbedding d.title d.content).length =
          (prepareTextForEmbedding d.title d.content).data.length := rfl
      unfold estimateTokens at h250
      omega
    rw [chunkText_default_none _ fuel hlen] at h
    exact Option.noConfusion h
  · rw [if_neg hn] at h
    cases he : env.embed (prepareTextForEmbedding d.title d.content) with
    | error e =>
      simp only [he] at h
      exact Except.noConfusion (Option.some.inj h)
    | ok v =>
      simp only [he] at h
      have := Option.some.inj h
      cases this
      constructor
      · simp
      · intro p hp
        rcases List.mem_singleton.mp hp with rfl
        rfl

theorem syncDocument_ok (env : SyncEnv) (fuel : Nat) (d : Document) (w : World)
    (n : Nat) (w' : World) (h : syncDocument env fuel d w = some (.ok n, w')) :
    ptsOf env fuel d ≠ [] ∧ (∀ p ∈ ptsOf env fuel d, p.payload.document_id = d.id) ∧
    w' = { w with points := upsertPoints w.points (ptsOf env fuel d),
                  trace := w.trace ++ [Op.upsert (ptsOf env fuel d)] } ∧
    n = (ptsOf env fuel d).length := by
  unfold syncDocument at h
  split at h
  · exact Option.noConfusion h
  · simp at h
  · rename_i pts heq
    obtain ⟨hne, hid⟩ := syncDocumentPoints_ok env fuel d pts heq
    have hpts : ptsOf env fuel d = pts := by
      unfold ptsOf
      rw [heq]
    rw [if_neg (by simp [List.isEmpty_iff, hne])] at h
    split at h
    · simp at h
    · cases h
      refine ⟨?_, ?_, ?_, ?_⟩
      · rw [hpts]; exact hne
      · rw [hpts]; exact hid
      · rw [hpts]
      · rw [hpts]

theorem incDocsLoop_ok_trace (env : SyncEnv) (fuel : Nat) :
    ∀ (docs : List Document) (total : Nat) (w : World) (n : Nat) (w' : World),
      incDocsLoop env fuel docs total w = some (.ok n, w') →
      w'.trace = w.trace ++
        docs.flatMap (fun d => [Op.delete d.id, Op.upsert (ptsOf env fuel d)]) ∧
      ∀ d ∈ docs, ptsOf env fuel d ≠ [] ∧
        ∀ p ∈ ptsOf env fuel d, p.payload.document_id = d.id := by
  intro docs
  induction docs with
  | nil =>
    intro total w n w' h
    cases h
    constructor
    · simp
    · intro d hd
      cases hd
  | cons d rest ih =>
    intro total w n w' h
    unfold incDocsLoop at h
    split at h
    · simp at h
    · split at h
      · exact Option.noConfusion h
      · simp at h
      · rename_i m w2 heq
        obtain ⟨hne, hid, hw2, hm⟩ := syncDocument_ok env fuel d _ _ _ heq
        obtain ⟨ht, hall⟩ := ih _ _ _ _ h
        constructor
        · rw [ht, hw2]
          simp [List.flatMap_cons, List.append_assoc]
        · intro d' hd'
          rcases List.mem_cons.mp hd' with rfl | hd'
          · exact ⟨hne, hid⟩
          · exact hall d' hd'

/-- C2 amended: on a run that completes successfully, `incrementalSync`
uses as watermark the `completedAt` of the most recent COMPLETED run of
either type (epoch zero when none; the freshly inserted STARTED row
does not shift it), re-ingests exactly the documents with
`updatedAt > since`, and its call trace is delete-then-upsert pairs,
one per such document, each upsert nonempty and carrying only that
document's points.  (When the run fails mid-pass, a delete may be left
unpaired — see the counterexample.) -/
theorem incrementalSync_success_spec :
    ∀ (env : SyncEnv) (fuel : Nat) (w : World) (res : SyncResult) (w' : World),
      w.isSyncing = false →
      incrementalSync env fuel w = some (res, w') → res.success = true →
      ∃ f : Document → List VectorPoint,
        w'.trace = w.trace ++
          (docsModifiedSince env (lastCompletedAtSpec w.logs)).flatMap
            (fun d => [Op.delete d.id, Op.upsert (f d)]) ∧
        (∀ d ∈ docsModifiedSince env (lastCompletedAtSpec w.logs),
           f d ≠ [] ∧ ∀ p ∈ f d, p.payload.document_id = d.id) ∧
        res.documentsSynced =
          (docsModifiedSince env (lastCompletedAtSpec w.logs)).length := by
  intro env fuel w res w' hflag hrun hsucc
  unfold incrementalSync at hrun
  rw [if_neg (by simp [hflag])] at hrun
  split at hrun
  · exact Option.noConfusion hrun
  · rename_i dc tc w1 heq
    cases hrun
    have hsince : sinceOf (syncEnter .incremental env w).logs =
        lastCompletedAtSpec w.logs := by
      rw [syncEnter_logs, sinceOf_append_started, sinceOf_eq_spec]
    have hdocs : docsModifiedSince env (lastCompletedAtSpec w.logs) =
        env.docs.filter
          (fun d => sinceOf (syncEnter .incremental env w).logs < d.updatedAt) := by
      unfold docsModifiedSince
      simp only [hsince]
    unfold incSyncBody at heq
    split at heq
    · simp at heq
    · split at heq
      · exact Option.noConfusion heq
      · simp at heq
      · rename_i total w2 hloop
        cases heq
        obtain ⟨ht, hall⟩ := incDocsLoop_ok_trace env fuel _ _ _ _ _ hloop
        have hst : (syncEnter .incremental env w).trace = w.trace := rfl
        refine ⟨ptsOf env fuel, ?_, ?_, ?_⟩
        · show w1.trace = _
          rw [ht, hst, hdocs]
        · intro d hd
          rw [hdocs] at hd
          exact hall d hd
        · show (env.docs.filter
            (fun d => sinceOf (syncEnter .incremental env w).logs < d.updatedAt)).length = _
          rw [hdocs]
  · cases hrun
    simp [errSyncResult] at hsucc

/-- Witness for the amended C2: a successful one-document incremental
run whose trace is exactly one delete/upsert pair. -/
theorem incrementalSync_success_spec_witness :
    ∃ res w', incrementalSync cexEnvOk 2 cexWorld = some (res, w') ∧
      res.success = true ∧
      ∃ f : Document → List VectorPoint,
        w'.trace = cexWorld.trace ++
          (docsModifiedSince cexEnvOk (lastCompletedAtSpec cexWorld.logs)).flatMap
            (fun d => [Op.delete d.id, Op.upsert (f d)]) :=
  ⟨_, _, rfl, rfl,
   (incrementalSync_success_spec cexEnvOk 2 cexWorld _ _ rfl rfl rfl).elim
     (fun f hf => ⟨f, hf.1⟩)⟩

/-- C2 counterexample: in an environment whose embedding backend fails,
`incrementalSync` deletes the modified document's points and then
aborts, so the pass performs a delete-by-document-id that is paired
with no re-ingest — the unconditional pairing claim is false on the
code. -/
theorem incrementalSync_delete_without_reingest : ¬ IncPairing cexEnvFail cexWorld := by
  intro h
  obtain ⟨pts, hmem, hne, _⟩ := h 1 _ _ rfl "d1" (by decide)
  simp [syncEnter, cexWorld, cexEnvFail, cexDoc, startedLog] at hmem
